import Mathlib

/-!
Shallow embedding of the newsrc subscription/read-state core of
`src/nntp/newsrc.c` (NeoMutt NNTP backend), together with proofs of the
specification claims about it.

Article numbers (`anum_t`) are C `unsigned int` (32-bit); arithmetic on
them is modelled on `Nat` with explicit `% U32` wherever the C code can
wrap around.
-/

/-- Modulus of the C `anum_t` / `unsigned int` type (2^32). -/
def U32 : Nat := 4294967296

/-- One element of `mdata->newsrc_ent`: a closed interval of read articles. -/
structure NewsrcEntry where
  first : Nat
  last : Nat
deriving DecidableEq

/-- One loaded article of an open mailbox: its server article number and the
two live flags the newsrc code inspects. -/
structure LoadedArticle where
  article_num : Nat
  read : Bool
  deleted : Bool
deriving DecidableEq

/-- The per-group state (`struct NntpMboxData`) as far as the newsrc code
manipulates it.  `newsrc_ent = none` models a NULL entry array. -/
structure NntpMboxData where
  group : String
  subscribed : Bool
  deleted : Bool
  first_message : Nat
  last_message : Nat
  last_loaded : Nat
  last_cached : Nat
  unread : Nat
  newsrc_ent : Option (List NewsrcEntry)
deriving DecidableEq

/-- Whitespace in the sense of C `isspace` (what `sscanf` `%u` skips). -/
def isSpaceChar (c : Char) : Bool :=
  c = ' ' || c = '\t' || c = '\n' || c = '\r' || c = '\x0b' || c = '\x0c'

/-- Decimal digit characters, as accepted by `sscanf` `%u`. -/
def isDigitChar (c : Char) : Bool :=
  decide (48 ≤ c.toNat ∧ c.toNat ≤ 57)

/-- The decimal digit character for a value below ten. -/
def digitChar : Nat → Char
  | 0 => '0' | 1 => '1' | 2 => '2' | 3 => '3' | 4 => '4'
  | 5 => '5' | 6 => '6' | 7 => '7' | 8 => '8' | _ => '9'

/-- Decimal digit string of `n / 10^k` style recursion with explicit fuel,
so that the kernel can evaluate it.  `natToDigitsAux fuel n` is the decimal
representation of `n` provided `n ≤ fuel` and `n ≠ 0`. -/
def natToDigitsAux : Nat → Nat → List Char
  | 0, _ => []
  | _ + 1, 0 => []
  | fuel + 1, n + 1 =>
    natToDigitsAux fuel ((n + 1) / 10) ++ [digitChar ((n + 1) % 10)]

/-- Decimal representation of a natural number, as printed by `printf` `%u`. -/
def natToDigits (n : Nat) : List Char :=
  if n = 0 then ['0'] else natToDigitsAux n n

/-- Value of a big-endian decimal digit string. -/
def digitsToNat (l : List Char) : Nat :=
  l.foldl (fun a c => a * 10 + (c.toNat - 48)) 0

/-- Optional sign handling of `sscanf` `%u` (a leading `-` negates the value
in unsigned arithmetic, as C's conversion does). -/
def scanSign (s : List Char) : Bool × List Char :=
  match s with
  | [] => (false, [])
  | c :: t =>
    if c = '-' then (true, t)
    else if c = '+' then (false, t)
    else (false, c :: t)

/-- Model of one `sscanf` `%u` conversion: skip whitespace, optional sign,
then a nonempty run of digits; returns the converted `anum_t` value and the
unconsumed remainder of the string.  Out-of-range digit strings wrap modulo
2^32 like the stored `unsigned int`. -/
def scanURem (s : List Char) : Option (Nat × List Char) :=
  let s1 := s.dropWhile isSpaceChar
  let p := scanSign s1
  let ds := p.2.takeWhile isDigitChar
  let rest := p.2.dropWhile isDigitChar
  if ds.isEmpty then none
  else
    let v := digitsToNat ds % U32
    some (if p.1 then (U32 - v) % U32 else v, rest)

/-- `sscanf(b, ANUM, &x) == 1`: the converted value, ignoring the remainder. -/
def scanU (s : List Char) : Option Nat :=
  (scanURem s).map (fun r => r.1)

/-- `sscanf(id, ANUM "%c", &anum, &c) == 1`: a `%u` conversion that must
consume the whole string (the trailing `%c` must find nothing). -/
def scanIdFull (s : List Char) : Option Nat :=
  match scanURem s with
  | some (n, []) => some n
  | _ => none

/-- C `strchr`: split a string at the first occurrence of `c`, the occurrence
itself removed (the code overwrites it with NUL). -/
def strchrSplit (s : List Char) (c : Char) : Option (List Char × List Char) :=
  match s with
  | [] => none
  | a :: rest =>
    if a = c then some ([], rest)
    else (strchrSplit rest c).map (fun p => (a :: p.1, p.2))

/-- The comma-splitting loop of `nntp_newsrc_parse` (`p = strchr(p, ',')`
repeated): every `,` separates tokens, the empty string is one empty token. -/
def commaSplit : List Char → List (List Char)
  | [] => [[]]
  | c :: rest =>
    if c = ',' then [] :: commaSplit rest
    else
      match commaSplit rest with
      | [] => [[c]]
      | t :: ts => (c :: t) :: ts

/-- Parsing of one range token in `nntp_newsrc_parse`: split at the first
`-` if any (otherwise both halves are the whole token) and require both
halves to convert under `%u`. -/
def parseEntryToken (tok : List Char) : Option NewsrcEntry :=
  match strchrSplit tok '-' with
  | some (b, h) =>
    match scanU b, scanU h with
    | some f, some l => some ⟨f, l⟩
    | _, _ => none
  | none =>
    match scanU tok with
    | some f => some ⟨f, f⟩
    | none => none

/-- The per-line range parsing of `nntp_newsrc_parse`: comma-split, drop
tokens that fail to convert, and substitute the sentinel `[1,0]` entry when
no token survived (`if (j == 0)` branch). -/
def parseRangeList (s : List Char) : List NewsrcEntry :=
  let ents := (commaSplit s).filterMap parseEntryToken
  if ents = [] then [⟨1, 0⟩] else ents

/-- Serialization of one entry in `nntp_newsrc_update`: equal bounds print
one number, `first < last` prints `first-last`, and an entry with
`first > last` prints nothing at all. -/
def entryChars (e : NewsrcEntry) : List Char :=
  if e.first = e.last then natToDigits e.first
  else if e.first < e.last then natToDigits e.first ++ '-' :: natToDigits e.last
  else []

/-- The entry loop of `nntp_newsrc_update`: a comma before every entry but
the first, then the entry's token. -/
def serializeEntries : List NewsrcEntry → List Char
  | [] => []
  | [e] => entryChars e
  | e :: rest => entryChars e ++ ',' :: serializeEntries rest

/-- `nntp_group_unread_stat`: recompute `mdata->unread` from the group's
bounds and its newsrc entries, in `anum_t` (unsigned 32-bit) arithmetic. -/
def nntp_group_unread_stat (mdata : NntpMboxData) : NntpMboxData :=
  if mdata.last_message = 0 ∨ mdata.first_message > mdata.last_message then
    { mdata with unread := 0 }
  else
    let start := (mdata.last_message - mdata.first_message + 1) % U32
    let unread := (mdata.newsrc_ent.getD []).foldl
      (fun u e =>
        let first := if e.first < mdata.first_message then mdata.first_message else e.first
        let last := if e.last > mdata.last_message then mdata.last_message else e.last
        if first ≤ last then (u + (U32 - (last - first + 1) % U32)) % U32 else u)
      start
    { mdata with unread := unread }

/-- `mutt_hash_find(adata->groups_hash, name)`: groups are keyed by name. -/
def hashFind (groups : List NntpMboxData) (name : String) : Option NntpMboxData :=
  groups.find? (fun g => g.group = name)

/-- The freshly calloc'd group created by `mdata_find` before insertion. -/
def newGroup (name : String) : NntpMboxData :=
  { group := name, subscribed := false, deleted := true, first_message := 0,
    last_message := 0, last_loaded := 0, last_cached := 0, unread := 0,
    newsrc_ent := none }

/-- `mdata_find`: return the registry, with a fresh group appended at the
end of `groups_list` when the name was absent. -/
def mdataFind (groups : List NntpMboxData) (name : String) : List NntpMboxData :=
  match hashFind groups name with
  | some _ => groups
  | none => groups ++ [newGroup name]

/-- In-place mutation of the (uniquely named) group called `name`. -/
def updateGroup (groups : List NntpMboxData) (name : String)
    (f : NntpMboxData → NntpMboxData) : List NntpMboxData :=
  groups.map (fun g => if g.group = name then f g else g)

/-- C `strpbrk(line, ":!")`: split the line at its first `:` or `!`,
returning the name part, the marker and the remainder. -/
def strpbrkSplit (line : List Char) : Option (List Char × Char × List Char) :=
  match line with
  | [] => none
  | c :: rest =>
    if c = ':' ∨ c = '!' then some ([], c, rest)
    else (strpbrkSplit rest).map (fun p => (c :: p.1, p.2.1, p.2.2))

/-- Processing of one physical line by `nntp_newsrc_parse`: lines without a
marker are skipped; otherwise the named group is created if needed, its
entry list replaced by the parsed ranges, its subscription flag set from the
marker, `last_message` initialised from the final entry when still zero, and
its unread count recomputed. -/
def processLine (groups : List NntpMboxData) (line : List Char) : List NntpMboxData :=
  match strpbrkSplit line with
  | none => groups
  | some (name, marker, rest) =>
    let nm := String.mk name
    let groups1 := mdataFind groups nm
    updateGroup groups1 nm (fun g =>
      let ents := parseRangeList rest
      nntp_group_unread_stat
        { g with subscribed := marker = ':',
                 newsrc_ent := some ents,
                 last_message :=
                   if g.last_message = 0 then ((ents.getLast?).getD ⟨1, 0⟩).last
                   else g.last_message })

/-- The on-disk newsrc file as `nntp_newsrc_parse` observes it: the `stat`
fingerprint and the physical lines delivered by `fgets`. -/
structure NewsrcFile where
  size : Nat
  mtime : Nat
  lines : List (List Char)
deriving DecidableEq

/-- The account state (`struct NntpAccountData`) as far as newsrc parsing
manipulates it. -/
structure NntpAccountData where
  groups_list : List NntpMboxData
  size : Nat
  mtime : Nat
  newsrc_modified : Bool
deriving DecidableEq

/-- The tri-state outcome of `nntp_newsrc_parse` (-1 / 0 / 1). -/
inductive ParseResult
  | failed
  | unchanged
  | parsed
deriving DecidableEq

/-- `nntp_newsrc_parse`: `file = none` models an unreadable newsrc file,
`lockOk` and `statOk` the success of `mutt_file_lock` and `stat`.  When the
`(size, mtime)` fingerprint is unchanged the call returns before touching
any group; otherwise every group is first reset (unsubscribed, entry array
freed) and the lines are replayed. -/
def nntp_newsrc_parse (adata : NntpAccountData) (file : Option NewsrcFile)
    (lockOk statOk : Bool) : ParseResult × NntpAccountData :=
  match file with
  | none => (.failed, adata)
  | some f =>
    if lockOk = false then (.failed, adata)
    else if statOk = false then (.failed, adata)
    else if adata.size = f.size ∧ adata.mtime = f.mtime then (.unchanged, adata)
    else
      let groups0 := adata.groups_list.map
        (fun g => { g with subscribed := false, newsrc_ent := none })
      let groups1 := (if f.size = 0 then [] else f.lines).foldl processLine groups0
      (.parsed,
        { adata with groups_list := groups1, size := f.size, mtime := f.mtime,
                     newsrc_modified := true })

/-- The scanning loop of `nntp_newsrc_gen_entries` over `m->emails`,
carrying `first`, `last` and the `series` flag; returns the emitted entries
together with the final `first` and `series` values. -/
def gen_scan (fm : Nat) : List LoadedArticle → Nat → Nat → Bool →
    List NewsrcEntry × Nat × Bool
  | [], first, _, series => ([], first, series)
  | e :: rest, first, last, series =>
    if series = true then
      if fm ≤ e.article_num ∧ e.deleted = false ∧ e.read = false then
        let r := gen_scan fm rest first e.article_num false
        (⟨first, e.article_num - 1⟩ :: r.1, r.2)
      else
        gen_scan fm rest first e.article_num true
    else
      if e.deleted = true ∨ e.read = true then
        gen_scan fm rest (last + 1) e.article_num true
      else
        gen_scan fm rest first e.article_num false

/-- The post-scan step of `nntp_newsrc_gen_entries`: when the scan ended
inside a read block and `first <= last_loaded`, a trailing entry
`[first, last_loaded]` is appended. -/
def gen_trailing (r : List NewsrcEntry × Nat × Bool) (last_loaded : Nat) :
    List NewsrcEntry :=
  if r.2.2 = true ∧ r.2.1 ≤ last_loaded then r.1 ++ [⟨r.2.1, last_loaded⟩]
  else r.1

/-- `nntp_newsrc_gen_entries`: the read-range synthesizer, scanning the
loaded articles starting from `first = 1`, `last = 0`, `series = true`. -/
def nntp_newsrc_gen_entries (fm last_loaded : Nat)
    (emails : List LoadedArticle) : List NewsrcEntry :=
  gen_trailing (gen_scan fm emails 1 0 true) last_loaded

/-- Whether the newsrc code counts an article as read (read or deleted). -/
def readOrDel (a : LoadedArticle) : Bool := a.deleted || a.read

/-- Article numbers of the list are exactly `pos, pos+1, pos+2, ...`. -/
def consecFrom : Nat → List LoadedArticle → Bool
  | _, [] => true
  | pos, a :: rest => (a.article_num == pos) && consecFrom (pos + 1) rest

/-- Specification-side scanner for the maximal runs of `true` flags: `pos`
is the 1-based position of the next flag, `cur` the start of the currently
open run, if any.  A run still open at the end of the list closes at the
last position. -/
def runsAux : List Bool → Nat → Option Nat → List NewsrcEntry
  | [], _, none => []
  | [], pos, some s => [⟨s, pos - 1⟩]
  | f :: rest, pos, none =>
    if f = true then runsAux rest (pos + 1) (some pos)
    else runsAux rest (pos + 1) none
  | f :: rest, pos, some s =>
    if f = true then runsAux rest (pos + 1) (some s)
    else ⟨s, pos - 1⟩ :: runsAux rest (pos + 1) none

/-- Maximal runs of `true` flags as closed intervals of 1-based positions:
the claim's reading of "maximal runs of read-or-deleted article numbers". -/
def maximalRuns (flags : List Bool) : List NewsrcEntry :=
  runsAux flags 1 none

/-- The observable filesystem state `update_file` acts on: the target file's
content and the sibling `.tmp` file's content, when those files exist. -/
structure NewsrcFs where
  target : Option (List Char)
  tmp : Option (List Char)
deriving DecidableEq

/-- Failure injection for the four fallible steps of `update_file`. -/
structure UpdateEnv where
  openFails : Bool
  putsFails : Bool
  closeFails : Bool
  renameFails : Bool
deriving DecidableEq

/-- `update_file`: write `buf` to the sibling temporary file, rename it over
the target.  Each fallible C call is modelled by its flag in `ev`; on the
paths that reach `break` with a nonempty `tmpfile`, the temporary file is
unlinked before returning. -/
def update_file (fs : NewsrcFs) (buf : List Char) (ev : UpdateEnv) :
    Int × NewsrcFs :=
  if ev.openFails = true then
    (-1, fs)
  else
    let fs1 : NewsrcFs := { fs with tmp := some [] }
    if ev.putsFails = true then
      (-1, { fs1 with tmp := none })
    else
      let fs2 : NewsrcFs := { fs1 with tmp := some buf }
      if ev.closeFails = true then
        (-1, { fs2 with tmp := none })
      else if ev.renameFails = true then
        (-1, { fs2 with tmp := none })
      else
        (0, { fs2 with target := some buf, tmp := none })

/-- `mutt_newsgroup_subscribe`: create-or-fetch the group, mark it
subscribed, and give it the sentinel `[1,0]` entry when it had none. -/
def mutt_newsgroup_subscribe (groups : List NntpMboxData) (name : String) :
    Option NntpMboxData × List NntpMboxData :=
  if name = "" then (none, groups)
  else
    let groups1 := mdataFind groups name
    let groups2 := updateGroup groups1 name (fun g =>
      { g with subscribed := true,
               newsrc_ent := some (g.newsrc_ent.getD [⟨1, 0⟩]) })
    (hashFind groups2 name, groups2)

/-- `mutt_newsgroup_unsubscribe`: only an existing group is touched; absent
names return NULL.  Unless `save_unsubscribed` is set, the entry array is
freed. -/
def mutt_newsgroup_unsubscribe (saveUnsub : Bool)
    (groups : List NntpMboxData) (name : String) :
    Option NntpMboxData × List NntpMboxData :=
  if name = "" then (none, groups)
  else
    match hashFind groups name with
    | none => (none, groups)
    | some _ =>
      let groups1 := updateGroup groups name (fun g =>
        { g with subscribed := false,
                 newsrc_ent := if saveUnsub = true then g.newsrc_ent else none })
      (hashFind groups1 name, groups1)

/-- `mutt_newsgroup_catchup`: for an existing group with a non-NULL entry
array, replace the ranges by the single interval `[1, last_message]`; set
the cached unread count to zero; when the group is the one open in `m`,
mark every loaded article read.  `mOpen` is the name of the group open in
the live mailbox, if any. -/
def mutt_newsgroup_catchup (mOpen : Option String)
    (emails : List LoadedArticle) (groups : List NntpMboxData) (name : String) :
    Option NntpMboxData × List NntpMboxData × List LoadedArticle :=
  if name = "" then (none, groups, emails)
  else
    match hashFind groups name with
    | none => (none, groups, emails)
    | some g =>
      let g1 :=
        if g.newsrc_ent.isSome = true then
          { g with newsrc_ent := some [⟨1, g.last_message⟩], unread := 0 }
        else { g with unread := 0 }
      let groups1 := updateGroup groups name (fun _ => g1)
      let emails1 :=
        if mOpen = some g.group then emails.map (fun e => { e with read := true })
        else emails
      (some g1, groups1, emails1)

/-- `mutt_newsgroup_uncatchup`: for an existing group with a non-NULL entry
array, replace the ranges by `[1, first_message - 1]`; recompute the cached
unread count from the live list when the group is open in `m`, otherwise
from `last_message` minus the new first entry's `last` (unsigned). -/
def mutt_newsgroup_uncatchup (mOpen : Option String)
    (emails : List LoadedArticle) (groups : List NntpMboxData) (name : String) :
    Option NntpMboxData × List NntpMboxData × List LoadedArticle :=
  if name = "" then (none, groups, emails)
  else
    match hashFind groups name with
    | none => (none, groups, emails)
    | some g =>
      let ent1 :=
        if g.newsrc_ent.isSome = true then some [(⟨1, g.first_message - 1⟩ : NewsrcEntry)]
        else g.newsrc_ent
      let g1 :=
        if mOpen = some g.group then
          { g with newsrc_ent := ent1, unread := emails.length }
        else
          { g with newsrc_ent := ent1,
                   unread :=
                     match ent1 with
                     | some (e0 :: _) =>
                       (g.last_message + (U32 - e0.last % U32)) % U32
                     | _ => g.last_message }
      let groups1 := updateGroup groups name (fun _ => g1)
      let emails1 :=
        if mOpen = some g.group then emails.map (fun e => { e with read := false })
        else emails
      (some g1, groups1, emails1)

/-- The live unread count `nntp_mailbox` computes for the open group. -/
def liveUnreadCount (emails : List LoadedArticle) : Nat :=
  emails.countP (fun e => !e.read && !e.deleted)

/-- `nntp_mailbox`: scan the registry in order for the first subscribed
group with nonzero cached unread count, recounting from the live article
flags (and skipping on zero) when the candidate is the group open in the
caller's NNTP mailbox.  `none` models an untouched output buffer. -/
def nntp_mailbox (isNntp : Bool) (curGroup : String)
    (emails : List LoadedArticle) : List NntpMboxData → Option String
  | [] => none
  | g :: rest =>
    if g.subscribed = false ∨ g.unread = 0 then
      nntp_mailbox isNntp curGroup emails rest
    else if isNntp = true ∧ g.group = curGroup ∧ liveUnreadCount emails = 0 then
      nntp_mailbox isNntp curGroup emails rest
    else some g.group

/-- Modelled from the spec: `next_unread_group(registry,
exclude_self_if_zero_live_unread)` returns the first subscribed group with
`unread_count > 0`, except that the group matching the caller's open group
is skipped when its live-recomputed unread count is zero. -/
def next_unread_group (isNntp : Bool) (curGroup : String)
    (emails : List LoadedArticle) (groups : List NntpMboxData) : Option String :=
  (groups.find? (fun g =>
    g.subscribed && !(g.unread == 0) &&
      !(isNntp && (g.group == curGroup) && (liveUnreadCount emails == 0)))).map
    (fun g => g.group)

/-- `nntp_bcache_delete`: whether `mutt_bcache_del` is invoked for the entry
named `id`; it is, unless the id parses as a bare article number lying
within the group's `[first_message, last_message]` window. -/
def nntp_bcache_delete (mdata : Option NntpMboxData) (id : List Char) : Bool :=
  match mdata with
  | none => true
  | some md =>
    match scanIdFull id with
    | none => true
    | some anum =>
      if anum < md.first_message ∨ anum > md.last_message then true else false

/-- The keys deleted by the cleaning loop of `nntp_hcache_update`: every
article number of the previously stored index window `[first, last]` that
now lies outside `[first_message, last_message]`. -/
def nntp_hcache_update_deleted (first last fm lm : Nat) : List Nat :=
  (List.range' first (last + 1 - first)).filter
    (fun n => !(decide (fm ≤ n) && decide (n ≤ lm)))

/-- Length of one stored interval clamped to the window `[fm, lm]`, counted
only when the clamped interval is nonempty (specification-side notion). -/
def clampedLen (fm lm : Nat) (e : NewsrcEntry) : Nat :=
  let f := max e.first fm
  let l := min e.last lm
  if f ≤ l then l - f + 1 else 0

/-- Total clamped length of a list of stored intervals. -/
def sumClamped (fm lm : Nat) (es : List NewsrcEntry) : Nat :=
  (es.map (clampedLen fm lm)).sum

/-- Modelled from the claim's words: window span minus the total clamped
length, with a negative result clamping to 0. -/
def claim_unread_value (fm lm : Nat) (es : List NewsrcEntry) : Int :=
  max 0 ((lm : Int) - (fm : Int) + 1 - (sumClamped fm lm es : Int))

theorem digitChar_spec (d : Nat) (h : d < 10) :
    isDigitChar (digitChar d) = true ∧ (digitChar d).toNat - 48 = d := by
  interval_cases d <;> exact ⟨by decide, by decide⟩

theorem digit_char_class (c : Char) (h : isDigitChar c = true) :
    c ≠ ',' ∧ c ≠ '-' ∧ c ≠ '+' ∧ c ≠ ':' ∧ c ≠ '!' ∧ c ≠ '\n' ∧
      isSpaceChar c = false := by
  have hn : 48 ≤ c.toNat ∧ c.toNat ≤ 57 := of_decide_eq_true h
  refine ⟨?_, ?_, ?_, ?_, ?_, ?_, ?_⟩
  · intro he; subst he; revert hn; decide
  · intro he; subst he; revert hn; decide
  · intro he; subst he; revert hn; decide
  · intro he; subst he; revert hn; decide
  · intro he; subst he; revert hn; decide
  · intro he; subst he; revert hn; decide
  · rcases h4 : c.toNat with _ | n
    · omega
    · simp only [isSpaceChar]
      have h1 : c ≠ ' ' := by intro he; subst he; revert hn; decide
      have h2 : c ≠ '\t' := by intro he; subst he; revert hn; decide
      have h3 : c ≠ '\n' := by intro he; subst he; revert hn; decide
      have h5 : c ≠ '\r' := by intro he; subst he; revert hn; decide
      have h6 : c ≠ '\x0b' := by intro he; subst he; revert hn; decide
      have h7 : c ≠ '\x0c' := by intro he; subst he; revert hn; decide
      simp [h1, h2, h3, h5, h6, h7]

theorem natToDigitsAux_all_digits (fuel : Nat) :
    ∀ n, ∀ c ∈ natToDigitsAux fuel n, isDigitChar c = true := by
  induction fuel with
  | zero => intro n c hc; simp [natToDigitsAux] at hc
  | succ f ih =>
    intro n c hc
    match n with
    | 0 => simp [natToDigitsAux] at hc
    | m + 1 =>
      simp only [natToDigitsAux, List.mem_append, List.mem_singleton] at hc
      rcases hc with hc | hc
      · exact ih _ c hc
      · subst hc
        exact (digitChar_spec ((m + 1) % 10) (Nat.mod_lt _ (by omega))).1

theorem natToDigits_all_digits (n : Nat) :
    ∀ c ∈ natToDigits n, isDigitChar c = true := by
  intro c hc
  unfold natToDigits at hc
  by_cases h : n = 0
  · simp [h] at hc; subst hc; decide
  · simp only [h, if_false] at hc
    exact natToDigitsAux_all_digits n n c hc

theorem natToDigits_ne_nil (n : Nat) : natToDigits n ≠ [] := by
  unfold natToDigits
  by_cases h : n = 0
  · simp [h]
  · simp only [h, if_false]
    match n, h with
    | m + 1, _ =>
      simp [natToDigitsAux]

theorem digitsToNat_append (xs : List Char) (c : Char) :
    digitsToNat (xs ++ [c]) = digitsToNat xs * 10 + (c.toNat - 48) := by
  simp [digitsToNat, List.foldl_append]

theorem natToDigitsAux_val (fuel : Nat) :
    ∀ n, n ≤ fuel → digitsToNat (natToDigitsAux fuel n) = n := by
  induction fuel with
  | zero => intro n hn; interval_cases n; simp [natToDigitsAux, digitsToNat]
  | succ f ih =>
    intro n hn
    match n with
    | 0 => simp [natToDigitsAux, digitsToNat]
    | m + 1 =>
      rw [natToDigitsAux, digitsToNat_append,
        (digitChar_spec ((m + 1) % 10) (Nat.mod_lt _ (by omega))).2,
        ih ((m + 1) / 10) (by omega)]
      omega

theorem digitsToNat_natToDigits (n : Nat) : digitsToNat (natToDigits n) = n := by
  unfold natToDigits
  by_cases h : n = 0
  · simp [h]; decide
  · simp only [h, if_false]
    exact natToDigitsAux_val n n le_rfl

theorem takeWhile_append_of_all (p : Char → Bool) :
    ∀ (xs ys : List Char), (∀ c ∈ xs, p c = true) →
      (∀ c, ys.head? = some c → p c = false) →
      (xs ++ ys).takeWhile p = xs ∧ (xs ++ ys).dropWhile p = ys := by
  intro xs
  induction xs with
  | nil =>
    intro ys _ hy
    cases ys with
    | nil => simp
    | cons c t =>
      have := hy c rfl
      simp [List.takeWhile, List.dropWhile, this]
  | cons x xs ih =>
    intro ys hx hy
    have hpx : p x = true := hx x (by simp)
    have := ih ys (fun c hc => hx c (by simp [hc])) hy
    simp [List.takeWhile, List.dropWhile, hpx, this.1, this.2]

theorem dropWhile_cons_of_neg (p : Char → Bool) (c : Char) (s : List Char)
    (h : p c = false) : (c :: s).dropWhile p = c :: s := by
  simp [List.dropWhile, h]

theorem scanURem_digits (n : Nat) (rest : List Char)
    (hrest : ∀ c, rest.head? = some c → isDigitChar c = false) :
    scanURem (natToDigits n ++ rest) = some (n % U32, rest) := by
  obtain ⟨d, ds, hds⟩ : ∃ d ds, natToDigits n = d :: ds := by
    cases h : natToDigits n with
    | nil => exact absurd h (natToDigits_ne_nil n)
    | cons d ds => exact ⟨d, ds, rfl⟩
  have hd : isDigitChar d = true := by
    apply natToDigits_all_digits n; simp [hds]
  have hclass := digit_char_class d hd
  have hdrop : ((natToDigits n ++ rest).dropWhile isSpaceChar) =
      natToDigits n ++ rest := by
    rw [hds]; exact dropWhile_cons_of_neg _ _ _ (by rw [hds] at *; exact hclass.2.2.2.2.2.2)
  have hsign : scanSign (natToDigits n ++ rest) = (false, natToDigits n ++ rest) := by
    rw [hds]
    simp only [List.cons_append, scanSign]
    rw [if_neg (by simpa using hclass.2.1), if_neg (by simpa using hclass.2.2.1)]
  have hsplit := takeWhile_append_of_all isDigitChar (natToDigits n) rest
    (natToDigits_all_digits n) hrest
  rw [scanURem]
  simp only [hdrop, hsign, hsplit.1, hsplit.2]
  rw [if_neg (by simp [List.isEmpty_iff, natToDigits_ne_nil n])]
  simp [digitsToNat_natToDigits]

theorem scanU_digits (n : Nat) (rest : List Char) (hn : n < U32)
    (hrest : ∀ c, rest.head? = some c → isDigitChar c = false) :
    scanU (natToDigits n ++ rest) = some n := by
  simp [scanU, scanURem_digits n rest hrest, Nat.mod_eq_of_lt hn]

theorem scanU_digits_nil (n : Nat) (hn : n < U32) :
    scanU (natToDigits n) = some n := by
  have := scanU_digits n [] hn (by intro c h; simp at h)
  simpa using this

theorem scanIdFull_digits (n : Nat) (hn : n < U32) :
    scanIdFull (natToDigits n) = some n := by
  have h := scanURem_digits n [] (by intro c h; simp at h)
  rw [scanIdFull]
  simp only [List.append_nil] at h
  rw [h, Nat.mod_eq_of_lt hn]

theorem scanURem_space (c : Char) (h : isSpaceChar c = true) (s : List Char) :
    scanURem (c :: s) = scanURem s := by
  simp [scanURem, List.dropWhile, h]

theorem scanU_space (c : Char) (h : isSpaceChar c = true) (s : List Char) :
    scanU (c :: s) = scanU s := by
  simp [scanU, scanURem_space c h s]

theorem strchrSplit_of_not_mem (c : Char) :
    ∀ (s : List Char), (∀ x ∈ s, x ≠ c) → strchrSplit s c = none := by
  intro s
  induction s with
  | nil => intro _; rfl
  | cons a t ih =>
    intro h
    rw [strchrSplit, if_neg (h a (by simp)), ih (fun x hx => h x (by simp [hx]))]
    rfl

theorem strchrSplit_append (c : Char) :
    ∀ (xs ys : List Char), (∀ x ∈ xs, x ≠ c) →
      strchrSplit (xs ++ c :: ys) c = some (xs, ys) := by
  intro xs
  induction xs with
  | nil => intro ys _; simp [strchrSplit]
  | cons a t ih =>
    intro ys h
    rw [List.cons_append, strchrSplit, if_neg (h a (by simp)),
      ih ys (fun x hx => h x (by simp [hx]))]
    rfl

theorem commaSplit_ne_nil : ∀ s : List Char, commaSplit s ≠ [] := by
  intro s
  induction s with
  | nil => simp [commaSplit]
  | cons c t ih =>
    rw [commaSplit]
    by_cases hc : c = ','
    · simp [hc]
    · rw [if_neg hc]
      cases h : commaSplit t with
      | nil => simp
      | cons a l => simp

theorem commaSplit_of_not_mem :
    ∀ s : List Char, (∀ x ∈ s, x ≠ ',') → commaSplit s = [s] := by
  intro s
  induction s with
  | nil => intro _; rfl
  | cons c t ih =>
    intro h
    rw [commaSplit, if_neg (h c (by simp)), ih (fun x hx => h x (by simp [hx]))]

theorem commaSplit_append (xs ys : List Char) (h : ∀ x ∈ xs, x ≠ ',') :
    commaSplit (xs ++ ',' :: ys) = xs :: commaSplit ys := by
  induction xs with
  | nil => simp [commaSplit]
  | cons c t ih =>
    rw [List.cons_append, commaSplit, if_neg (h c (by simp)),
      ih (fun x hx => h x (by simp [hx]))]

theorem commaSplit_cons_head (c : Char) (s : List Char) (h : c ≠ ',') :
    commaSplit (c :: s) =
      (c :: (commaSplit s).headI) :: (commaSplit s).tail := by
  rw [commaSplit, if_neg h]
  cases hs : commaSplit s with
  | nil => exact absurd hs (commaSplit_ne_nil s)
  | cons a l => simp

theorem entryChars_all_tokenChars (e : NewsrcEntry) :
    ∀ c ∈ entryChars e, isDigitChar c = true ∨ c = '-' := by
  intro c hc
  unfold entryChars at hc
  by_cases h1 : e.first = e.last
  · simp only [h1, if_pos rfl] at hc
    exact Or.inl (natToDigits_all_digits _ c (by simpa [h1] using hc))
  · rw [if_neg h1] at hc
    by_cases h2 : e.first < e.last
    · rw [if_pos h2] at hc
      simp only [List.mem_append, List.mem_cons] at hc
      rcases hc with hc | hc | hc
      · exact Or.inl (natToDigits_all_digits _ c hc)
      · exact Or.inr hc
      · exact Or.inl (natToDigits_all_digits _ c hc)
    · rw [if_neg h2] at hc
      simp at hc

theorem entryChars_no_comma (e : NewsrcEntry) : ∀ c ∈ entryChars e, c ≠ ',' := by
  intro c hc
  rcases entryChars_all_tokenChars e c hc with h | h
  · exact (digit_char_class c h).1
  · subst h; decide

theorem parseEntryToken_entryChars (e : NewsrcEntry)
    (h1 : e.first ≤ e.last) (h2 : e.last < U32) (tail : List Char)
    (ht1 : ∀ c ∈ tail, c ≠ '-')
    (ht2 : ∀ c, tail.head? = some c → isDigitChar c = false) :
    parseEntryToken (entryChars e ++ tail) = some e := by
  rcases Nat.lt_or_ge e.first e.last with hlt | hge
  · have hsplit : strchrSplit (entryChars e ++ tail) '-' =
        some (natToDigits e.first, natToDigits e.last ++ tail) := by
      rw [entryChars, if_neg (Nat.ne_of_lt hlt), if_pos hlt, List.append_assoc,
        List.cons_append]
      exact strchrSplit_append '-' (natToDigits e.first) (natToDigits e.last ++ tail)
        (fun x hx => (digit_char_class x (natToDigits_all_digits _ x hx)).2.1)
    rw [parseEntryToken, hsplit]
    simp only [scanU_digits_nil e.first (lt_trans hlt h2),
      scanU_digits e.last tail h2 ht2]
  · have heq : e.first = e.last := Nat.le_antisymm h1 hge
    have hchars : entryChars e = natToDigits e.first := by
      rw [entryChars, if_pos heq]
    have hsplit : strchrSplit (entryChars e ++ tail) '-' = none := by
      apply strchrSplit_of_not_mem
      intro x hx
      rcases List.mem_append.1 hx with hx | hx
      · rw [hchars] at hx
        exact (digit_char_class x (natToDigits_all_digits _ x hx)).2.1
      · exact ht1 x hx
    rw [parseEntryToken, hsplit, hchars]
    simp only [scanU_digits e.first tail (heq ▸ h2) ht2]
    cases e
    simp at heq
    simp [heq]

theorem parseEntryToken_space (tok : List Char) :
    parseEntryToken (' ' :: tok) = parseEntryToken tok := by
  rw [parseEntryToken, parseEntryToken, strchrSplit,
    if_neg (by decide : ¬ (' ' = '-'))]
  cases h : strchrSplit tok '-' with
  | none => simp [scanU_space ' ' (by decide) tok]
  | some p => simp [scanU_space ' ' (by decide) p.1]

theorem filterMap_serialize :
    ∀ es : List NewsrcEntry, es ≠ [] →
      (∀ e ∈ es, e.first ≤ e.last ∧ e.last < U32) →
      (commaSplit (serializeEntries es ++ ['\n'])).filterMap parseEntryToken = es := by
  intro es
  induction es with
  | nil => intro h; exact absurd rfl h
  | cons e rest ih =>
    intro _ hval
    cases rest with
    | nil =>
      have hcs : commaSplit (serializeEntries [e] ++ ['\n']) =
          [entryChars e ++ ['\n']] := by
        rw [serializeEntries]
        apply commaSplit_of_not_mem
        intro x hx
        rcases List.mem_append.1 hx with hx | hx
        · exact entryChars_no_comma e x hx
        · simp at hx; subst hx; decide
      rw [hcs, List.filterMap]
      rw [parseEntryToken_entryChars e (hval e (by simp)).1 (hval e (by simp)).2
        ['\n'] (by intro c hc; simp at hc; subst hc; decide)
        (by intro c hc; simp at hc; subst hc; decide)]
      rfl
    | cons r rs =>
      have hcs : commaSplit (serializeEntries (e :: r :: rs) ++ ['\n']) =
          entryChars e :: commaSplit (serializeEntries (r :: rs) ++ ['\n']) := by
        have hser : serializeEntries (e :: r :: rs) =
            entryChars e ++ ',' :: serializeEntries (r :: rs) := rfl
        rw [hser, List.append_assoc, List.cons_append]
        exact commaSplit_append (entryChars e) (serializeEntries (r :: rs) ++ ['\n'])
          (entryChars_no_comma e)
      have hpe : parseEntryToken (entryChars e) = some e := by
        have := parseEntryToken_entryChars e (hval e (by simp)).1
          (hval e (by simp)).2 [] (by intro c hc; simp at hc)
          (by intro c hc; simp at hc)
        simpa using this
      rw [hcs, List.filterMap, hpe]
      have := ih (List.cons_ne_nil r rs) (fun x hx => hval x (by simp [hx]))
      rw [this]

/-- C2 (amended): for every nonempty interval list whose entries satisfy
`first <= last` (values being `anum_t`), serializing the group's ranges as
`nntp_newsrc_update` does and reparsing the resulting line text as
`nntp_newsrc_parse` does yields the same interval list in the same order,
with no merging.  (The parser sees the text between the subscription marker
and the end of line: a leading space and a trailing newline.) -/
theorem newsrc_roundtrip (es : List NewsrcEntry) (hne : es ≠ [])
    (hval : ∀ e ∈ es, e.first ≤ e.last ∧ e.last < U32) :
    parseRangeList (' ' :: serializeEntries es ++ ['\n']) = es := by
  have hsp : commaSplit (' ' :: (serializeEntries es ++ ['\n'])) =
      (' ' :: (commaSplit (serializeEntries es ++ ['\n'])).headI) ::
        (commaSplit (serializeEntries es ++ ['\n'])).tail :=
    commaSplit_cons_head ' ' _ (by decide)
  have hmain := filterMap_serialize es hne hval
  rw [parseRangeList]
  obtain ⟨t, ts, hts⟩ : ∃ t ts,
      commaSplit (serializeEntries es ++ ['\n']) = t :: ts := by
    cases h : commaSplit (serializeEntries es ++ ['\n']) with
    | nil => exact absurd h (commaSplit_ne_nil _)
    | cons t ts => exact ⟨t, ts, rfl⟩
  rw [List.cons_append, hsp, hts]
  simp only [List.headI, List.tail]
  rw [List.filterMap, parseEntryToken_space t]
  rw [hts, List.filterMap] at hmain
  rw [hmain]
  simp [hne]

theorem gen_trailing_cons (x : NewsrcEntry) (l : List NewsrcEntry)
    (p : Nat × Bool) (n : Nat) :
    gen_trailing (x :: l, p) n = x :: gen_trailing (l, p) n := by
  by_cases h : p.2 = true ∧ p.1 ≤ n
  · simp [gen_trailing, h]
  · simp [gen_trailing, h]

theorem gen_scan_runs (fm : Nat) :
    ∀ (arts : List LoadedArticle) (pos first : Nat) (series : Bool),
      consecFrom pos arts = true → fm ≤ pos → 1 ≤ pos →
      (series = true → 1 ≤ first ∧ first ≤ pos - 1) →
      gen_trailing (gen_scan fm arts first (pos - 1) series)
          (pos + arts.length - 1) =
        runsAux (arts.map readOrDel) pos (cond series (some first) none) := by
  intro arts
  induction arts with
  | nil =>
    intro pos first series hc hfm hpos hser
    cases series with
    | false => simp [gen_scan, gen_trailing, runsAux]
    | true =>
      have hb := hser rfl
      simp only [gen_scan, List.length_nil, Nat.add_zero, List.map_nil,
        Bool.cond_true]
      rw [gen_trailing, if_pos ⟨rfl, hb.2⟩]
      simp [runsAux]
  | cons a rest ih =>
    intro pos first series hc hfm hpos hser
    simp only [consecFrom, Bool.and_eq_true, beq_iff_eq] at hc
    have hnum : a.article_num = pos := hc.1
    have hcr : consecFrom (pos + 1) rest = true := hc.2
    have hlen : pos + (a :: rest).length - 1 = pos + 1 + rest.length - 1 := by
      simp only [List.length_cons]; omega
    have hpos1 : pos - 1 + 1 = pos := by omega
    cases series with
    | true =>
      have hb := hser rfl
      rw [gen_scan, if_pos rfl, hnum]
      by_cases hflag : a.deleted = false ∧ a.read = false
      · rw [if_pos ⟨hfm, hflag⟩]
        have hrod : readOrDel a = false := by
          simp [readOrDel, hflag.1, hflag.2]
        have ihr := ih (pos + 1) first false hcr (by omega) (by omega)
          (by intro h; exact absurd h (by decide))
        simp only [Nat.add_sub_cancel, Bool.cond_false] at ihr
        rw [hlen, gen_trailing_cons]
        simp only [List.map_cons, hrod, runsAux, Bool.cond_true]
        rw [if_neg (by decide : ¬ (false = true)), ← ihr]
      · rw [if_neg (by intro h; exact hflag ⟨h.2.1, h.2.2⟩)]
        have hrod : readOrDel a = true := by
          cases hd : a.deleted with
          | true => simp [readOrDel, hd]
          | false =>
            cases hr2 : a.read with
            | true => simp [readOrDel, hd, hr2]
            | false => exact absurd ⟨hd, hr2⟩ hflag
        have ihr := ih (pos + 1) first true hcr (by omega) (by omega)
          (by intro _; exact ⟨hb.1, by omega⟩)
        simp only [Nat.add_sub_cancel, Bool.cond_true] at ihr
        rw [hlen, ihr]
        simp only [List.map_cons, hrod, runsAux, Bool.cond_true]
        rw [if_pos trivial]
    | false =>
      rw [gen_scan, if_neg (by decide : ¬ (false = true)), hnum, hpos1]
      by_cases hflag : a.deleted = true ∨ a.read = true
      · rw [if_pos hflag]
        have hrod : readOrDel a = true := by
          rcases hflag with h | h <;> simp [readOrDel, h]
        have ihr := ih (pos + 1) pos true hcr (by omega) (by omega)
          (by intro _; exact ⟨by omega, by omega⟩)
        simp only [Nat.add_sub_cancel, Bool.cond_true] at ihr
        rw [hlen, ihr]
        simp only [List.map_cons, hrod, runsAux, Bool.cond_false]
        rw [if_pos trivial]
      · rw [if_neg hflag]
        have hrod : readOrDel a = false := by
          cases hd : a.deleted with
          | true => exact absurd (Or.inl hd) hflag
          | false =>
            cases hr2 : a.read with
            | true => exact absurd (Or.inr hr2) hflag
            | false => simp [readOrDel, hd, hr2]
        have ihr := ih (pos + 1) first false hcr (by omega) (by omega)
          (by intro h; exact absurd h (by decide))
        simp only [Nat.add_sub_cancel, Bool.cond_false] at ihr
        rw [hlen, ihr]
        simp only [List.map_cons, hrod, runsAux, Bool.cond_false]
        rw [if_neg (by decide : ¬ (false = true))]

/-- C1 (amended): on a consecutively numbered article list starting at 1
with `first_article <= 1` and `last_loaded` equal to the list length, the
synthesizer produces the maximal runs of read-or-deleted articles as
intervals, preceded by the empty interval `[1,0]` exactly when the first
loaded article is unread (the artificial initial read block closes there);
the trailing interval is emitted only when the scan ends inside a read
block reaching `last_loaded`. -/
theorem gen_entries_maximal_runs (fm : Nat) (arts : List LoadedArticle)
    (h1 : fm ≤ 1) (h2 : consecFrom 1 arts = true) :
    nntp_newsrc_gen_entries fm arts.length arts =
      (match arts.map readOrDel with
       | false :: _ => [(⟨1, 0⟩ : NewsrcEntry)]
       | _ => []) ++ maximalRuns (arts.map readOrDel) := by
  cases arts with
  | nil =>
    simp [nntp_newsrc_gen_entries, gen_scan, gen_trailing, maximalRuns, runsAux]
  | cons a rest =>
    simp only [consecFrom, Bool.and_eq_true, beq_iff_eq] at h2
    have hnum : a.article_num = 1 := h2.1
    have hcr : consecFrom 2 rest = true := h2.2
    have hlen : (a :: rest).length = 2 + rest.length - 1 := by
      simp only [List.length_cons]; omega
    rw [nntp_newsrc_gen_entries, gen_scan, if_pos rfl, hnum]
    by_cases hflag : a.deleted = false ∧ a.read = false
    · rw [if_pos ⟨h1, hflag⟩]
      have hrod : readOrDel a = false := by
        simp [readOrDel, hflag.1, hflag.2]
      have hmain := gen_scan_runs fm rest 2 1 false hcr (by omega) (by omega)
        (by intro h; exact absurd h (by decide))
      simp only [Bool.cond_false] at hmain
      rw [hlen, gen_trailing_cons]
      have h21 : (2 : Nat) - 1 = 1 := rfl
      rw [h21] at hmain
      rw [hmain, List.map_cons, hrod]
      rw [maximalRuns, runsAux, if_neg (by decide : ¬ (false = true))]
      rfl
    · rw [if_neg (by intro h; exact hflag ⟨h.2.1, h.2.2⟩)]
      have hrod : readOrDel a = true := by
        cases hd : a.deleted with
        | true => simp [readOrDel, hd]
        | false =>
          cases hr2 : a.read with
          | true => simp [readOrDel, hd, hr2]
          | false => exact absurd ⟨hd, hr2⟩ hflag
      have hmain := gen_scan_runs fm rest 2 1 true hcr (by omega) (by omega)
        (by intro _; exact ⟨by omega, by omega⟩)
      simp only [Bool.cond_true] at hmain
      have h21 : (2 : Nat) - 1 = 1 := rfl
      rw [h21] at hmain
      rw [hlen, hmain, List.map_cons, hrod]
      rw [maximalRuns, runsAux, if_pos rfl]
      rfl

/-- C1 counterexample: for a single loaded unread article (number 1, with
`first_article = 1`, `last_loaded_article = 1`) the synthesizer emits the
empty interval `[1,0]`, while the maximal runs of read-or-deleted article
numbers form the empty list; so the output is not exactly the maximal
runs. -/
theorem gen_entries_not_maximal_runs :
    nntp_newsrc_gen_entries 1 1 [⟨1, false, false⟩] ≠
      maximalRuns (List.map readOrDel [⟨1, false, false⟩]) := by decide

/-- C1 witness: the claim's concrete scenario, articles `1..5` with read
flags `[T,T,F,T,F]`, `first_article = 1`, `last_loaded_article = 5`,
produces `[[1,2],[4,4]]`, via the amended theorem. -/
theorem gen_entries_maximal_runs_witness :
    nntp_newsrc_gen_entries 1 5
      [⟨1, true, false⟩, ⟨2, true, false⟩, ⟨3, false, false⟩,
       ⟨4, true, false⟩, ⟨5, false, false⟩] =
      [⟨1, 2⟩, ⟨4, 4⟩] := by
  have h := gen_entries_maximal_runs 1
    [⟨1, true, false⟩, ⟨2, true, false⟩, ⟨3, false, false⟩,
     ⟨4, true, false⟩, ⟨5, false, false⟩] (by decide) (by decide)
  exact h.trans (by decide)

theorem unread_stat_fold (fm lm : Nat) :
    ∀ (es : List NewsrcEntry) (u : Nat), u < U32 → sumClamped fm lm es ≤ u →
      es.foldl
        (fun u e =>
          let first := if e.first < fm then fm else e.first
          let last := if e.last > lm then lm else e.last
          if first ≤ last then (u + (U32 - (last - first + 1) % U32)) % U32 else u)
        u = u - sumClamped fm lm es := by
  intro es
  induction es with
  | nil => intro u _ _; simp [sumClamped]
  | cons e rest ih =>
    intro u hu hsum
    have hf : (if e.first < fm then fm else e.first) = max e.first fm := by
      rcases Nat.lt_or_ge e.first fm with h | h
      · rw [if_pos h, Nat.max_eq_right (Nat.le_of_lt h)]
      · rw [if_neg (Nat.not_lt.2 h), Nat.max_eq_left h]
    have hl : (if e.last > lm then lm else e.last) = min e.last lm := by
      rcases Nat.lt_or_ge lm e.last with h | h
      · rw [if_pos h, Nat.min_eq_right (Nat.le_of_lt h)]
      · rw [if_neg (Nat.not_lt.2 h), Nat.min_eq_left h]
    have hsum_cons : sumClamped fm lm (e :: rest) =
        clampedLen fm lm e + sumClamped fm lm rest := by
      simp [sumClamped]
    rw [List.foldl_cons]
    simp only [hf, hl]
    by_cases hcl : max e.first fm ≤ min e.last lm
    · have hlen : clampedLen fm lm e = min e.last lm - max e.first fm + 1 := by
        rw [clampedLen, if_pos hcl]
      have hlenle : clampedLen fm lm e ≤ u := by
        rw [hsum_cons] at hsum; omega
      have hstep : (u + (U32 - (min e.last lm - max e.first fm + 1) % U32)) % U32 =
          u - clampedLen fm lm e := by
        rw [hlen]
        have h1 : min e.last lm - max e.first fm + 1 ≤ u := by omega
        unfold U32 at *
        omega
      rw [if_pos hcl, hstep,
        ih (u - clampedLen fm lm e) (by omega) (by rw [hsum_cons] at hsum; omega)]
      rw [hsum_cons]
      omega
    · have hlen : clampedLen fm lm e = 0 := by
        rw [clampedLen, if_neg hcl]
      rw [if_neg hcl, ih u hu (by rw [hsum_cons] at hsum; omega), hsum_cons, hlen]
      omega

/-- C3 (amended): for a group with a nonempty window (`last_article != 0`,
`1 <= first_article <= last_article < 2^32`) whose stored intervals, clamped
to the window, have total length at most the window span (as disjoint
intervals always do), the recomputed unread count equals the span minus the
total clamped length exactly; the arithmetic is unsigned 32-bit and wraps
rather than clamps when the total exceeds the span. -/
theorem unread_stat_exact (mdata : NntpMboxData)
    (h0 : mdata.last_message ≠ 0)
    (h1 : 1 ≤ mdata.first_message)
    (h2 : mdata.first_message ≤ mdata.last_message)
    (h3 : mdata.last_message < U32)
    (h4 : sumClamped mdata.first_message mdata.last_message
        (mdata.newsrc_ent.getD []) ≤
        mdata.last_message - mdata.first_message + 1) :
    (nntp_group_unread_stat mdata).unread =
      (mdata.last_message - mdata.first_message + 1) -
        sumClamped mdata.first_message mdata.last_message
          (mdata.newsrc_ent.getD []) := by
  have hspan : (mdata.last_message - mdata.first_message + 1) < U32 := by
    unfold U32 at *; omega
  rw [nntp_group_unread_stat,
    if_neg (by intro h; rcases h with h | h; exact h0 h; omega)]
  simp only [Nat.mod_eq_of_lt hspan]
  exact unread_stat_fold mdata.first_message mdata.last_message
    (mdata.newsrc_ent.getD []) (mdata.last_message - mdata.first_message + 1)
    hspan h4

/-- C3 counterexample: with bounds `[1,10]` and the (overlapping) stored
ranges `[[1,10],[1,10]]`, the code computes `2^32 - 10 = 4294967286` by
unsigned wraparound, not the claimed clamped value `0`. -/
theorem unread_stat_not_clamped :
    ((nntp_group_unread_stat
        { newGroup "g" with first_message := 1, last_message := 10,
                            newsrc_ent := some [⟨1, 10⟩, ⟨1, 10⟩] }).unread : Int) ≠
      claim_unread_value 1 10 [⟨1, 10⟩, ⟨1, 10⟩] := by decide

/-- C3 witness: bounds `[1,10]` with ranges `[[1,3],[5,7]]` give unread
count `10 - 3 - 3 = 4`, via the amended theorem. -/
theorem unread_stat_exact_witness :
    (nntp_group_unread_stat
        { newGroup "g" with first_message := 1, last_message := 10,
                            newsrc_ent := some [⟨1, 3⟩, ⟨5, 7⟩] }).unread = 4 := by
  have h := unread_stat_exact
    { newGroup "g" with first_message := 1, last_message := 10,
                        newsrc_ent := some [⟨1, 3⟩, ⟨5, 7⟩] }
    (by decide) (by decide) (by decide) (by decide) (by decide)
  exact h.trans (by decide)

/-- C2 counterexample: the empty interval list satisfies the claim's
validity condition vacuously, but serializing it yields empty range text
whose reparse produces the sentinel `[[1,0]]`, not the empty list. -/
theorem newsrc_roundtrip_empty_fails :
    parseRangeList (' ' :: serializeEntries [] ++ ['\n']) ≠
      ([] : List NewsrcEntry) := by decide

/-- C2 witness: the interval list `[[1,2],[4,4],[7,9]]` roundtrips through
serialization and reparsing unchanged, with no merging of the adjacent-in
text tokens, via the amended theorem. -/
theorem newsrc_roundtrip_witness :
    parseRangeList (' ' :: serializeEntries [⟨1, 2⟩, ⟨4, 4⟩, ⟨7, 9⟩] ++ ['\n']) =
      [⟨1, 2⟩, ⟨4, 4⟩, ⟨7, 9⟩] :=
  newsrc_roundtrip [⟨1, 2⟩, ⟨4, 4⟩, ⟨7, 9⟩] (by decide) (by decide)

/-- C5: when the file's `(size, mtime)` fingerprint equals the account's
recorded one (and open, lock and stat succeed), `nntp_newsrc_parse` returns
the Unchanged outcome and the whole account state — in particular every
group's subscribed flag, entry list and unread count — is returned exactly
as it was, whatever it was. -/
theorem newsrc_parse_unchanged (adata : NntpAccountData) (f : NewsrcFile)
    (h1 : adata.size = f.size) (h2 : adata.mtime = f.mtime) :
    nntp_newsrc_parse adata (some f) true true = (ParseResult.unchanged, adata) := by
  rw [nntp_newsrc_parse]
  rw [if_neg (by decide : ¬ (true = false)), if_neg (by decide : ¬ (true = false)),
    if_pos ⟨h1, h2⟩]

/-- C5 witness: a concrete account whose groups were mutated since the last
parse (a subscribed group with ranges) is left untouched by a fingerprint
matched reparse. -/
theorem newsrc_parse_unchanged_witness :
    nntp_newsrc_parse
        ⟨[{ newGroup "a" with subscribed := true, unread := 3,
                              newsrc_ent := some [⟨1, 2⟩] }], 5, 7, false⟩
        (some ⟨5, 7, [[':']]⟩) true true =
      (ParseResult.unchanged,
        ⟨[{ newGroup "a" with subscribed := true, unread := 3,
                              newsrc_ent := some [⟨1, 2⟩] }], 5, 7, false⟩) :=
  newsrc_parse_unchanged _ _ rfl rfl

theorem strpbrkSplit_none :
    ∀ line : List Char, (∀ c ∈ line, c ≠ ':' ∧ c ≠ '!') →
      strpbrkSplit line = none := by
  intro line
  induction line with
  | nil => intro _; rfl
  | cons c rest ih =>
    intro h
    have hc := h c (by simp)
    rw [strpbrkSplit, if_neg (by simp [hc.1, hc.2]),
      ih (fun x hx => h x (by simp [hx]))]
    rfl

/-- C6: malformed input never fails the parse: with I/O succeeding, parsing
any file content never returns the Failed outcome; a physical line with
neither `:` nor `!` leaves the registry untouched and parsing continues; and
a range text whose tokens all fail to parse yields the sentinel `[1,0]`
range list — the parsed range list of a processed group line is never
empty. -/
theorem newsrc_parse_never_fails :
    (∀ (adata : NntpAccountData) (f : NewsrcFile),
        (nntp_newsrc_parse adata (some f) true true).1 ≠ ParseResult.failed) ∧
    (∀ (groups : List NntpMboxData) (line : List Char),
        (∀ c ∈ line, c ≠ ':' ∧ c ≠ '!') → processLine groups line = groups) ∧
    (∀ s : List Char, parseRangeList s ≠ [] ∧
        ((∀ t ∈ commaSplit s, parseEntryToken t = none) →
          parseRangeList s = [⟨1, 0⟩])) := by
  refine ⟨?_, ?_, ?_⟩
  · intro adata f
    rw [nntp_newsrc_parse]
    rw [if_neg (by decide : ¬ (true = false)), if_neg (by decide : ¬ (true = false))]
    by_cases h : adata.size = f.size ∧ adata.mtime = f.mtime
    · rw [if_pos h]
      exact (by decide : ParseResult.unchanged ≠ ParseResult.failed)
    · rw [if_neg h]
      exact (by decide : ParseResult.parsed ≠ ParseResult.failed)
  · intro groups line h
    rw [processLine, strpbrkSplit_none line h]
  · intro s
    constructor
    · rw [parseRangeList]
      by_cases h : (commaSplit s).filterMap parseEntryToken = []
      · rw [if_pos h]; decide
      · rw [if_neg h]; exact h
    · intro h
      have hnil : (commaSplit s).filterMap parseEntryToken = [] := by
        rw [List.filterMap_eq_nil_iff]; exact h
      rw [parseRangeList, if_pos hnil]

/-- C6 witness: a line of garbage without any marker leaves a concrete
registry unchanged, the parse of a file made of such lines succeeds, and
the range text `"x"` (no valid token) yields the sentinel `[1,0]`. -/
theorem newsrc_parse_never_fails_witness :
    (nntp_newsrc_parse ⟨[newGroup "a"], 0, 0, false⟩
        (some ⟨9, 1, [['g', 'a', 'r', 'b']]⟩) true true).1 ≠ ParseResult.failed ∧
    processLine [newGroup "a"] ['g', 'a', 'r', 'b'] = [newGroup "a"] ∧
    parseRangeList ['x'] = [⟨1, 0⟩] :=
  ⟨newsrc_parse_never_fails.1 ⟨[newGroup "a"], 0, 0, false⟩
     ⟨9, 1, [['g', 'a', 'r', 'b']]⟩,
   newsrc_parse_never_fails.2.1 [newGroup "a"] ['g', 'a', 'r', 'b'] (by decide),
   (newsrc_parse_never_fails.2.2 ['x']).2 (by decide)⟩

/-- C7: with no temporary file pre-existing, any failure of the fallible
steps of `update_file` (opening the temporary file, writing it, closing it,
or the rename itself) makes the operation return Failed (-1) with the
original file's bytes unchanged and no temporary file left behind; when no
step fails, the rename installs exactly the new content. -/
theorem update_file_atomic (fs : NewsrcFs) (buf : List Char) (ev : UpdateEnv)
    (h0 : fs.tmp = none) :
    ((ev.openFails || ev.putsFails || ev.closeFails || ev.renameFails) = true →
      (update_file fs buf ev).1 = -1 ∧
      (update_file fs buf ev).2.target = fs.target ∧
      (update_file fs buf ev).2.tmp = none) ∧
    ((ev.openFails || ev.putsFails || ev.closeFails || ev.renameFails) = false →
      update_file fs buf ev = (0, ⟨some buf, none⟩)) := by
  rcases ev with ⟨o, p, c, r⟩
  cases o <;> cases p <;> cases c <;> cases r <;>
    simp [update_file, h0]

/-- C7 witness: a failure at the close step leaves a concrete original file
untouched with the temporary file removed; and with no failure the target
holds the new bytes. -/
theorem update_file_atomic_witness :
    ((update_file ⟨some ['a'], none⟩ ['b'] ⟨false, false, true, false⟩).1 = -1 ∧
      (update_file ⟨some ['a'], none⟩ ['b'] ⟨false, false, true, false⟩).2.target =
        some ['a'] ∧
      (update_file ⟨some ['a'], none⟩ ['b'] ⟨false, false, true, false⟩).2.tmp =
        none) ∧
    update_file ⟨some ['a'], none⟩ ['b'] ⟨false, false, false, false⟩ =
      (0, ⟨some ['b'], none⟩) :=
  ⟨(update_file_atomic ⟨some ['a'], none⟩ ['b'] ⟨false, false, true, false⟩ rfl).1
     (by decide),
   (update_file_atomic ⟨some ['a'], none⟩ ['b'] ⟨false, false, false, false⟩ rfl).2
     (by decide)⟩

/-- C8: the registry scan of `nntp_mailbox` computes exactly the
specification's `next_unread_group` query: the first subscribed group, in
insertion order, whose cached unread count is nonzero — except that a
candidate matching the caller's open NNTP group is recounted from the live
per-article flags and skipped when that live count is zero, even if its
cached count is stale and nonzero. -/
theorem nntp_mailbox_spec :
    ∀ (isNntp : Bool) (curGroup : String) (emails : List LoadedArticle)
      (groups : List NntpMboxData),
      nntp_mailbox isNntp curGroup emails groups =
        next_unread_group isNntp curGroup emails groups := by
  intro i c em groups
  induction groups with
  | nil => rfl
  | cons g rest ih =>
    by_cases h1 : g.subscribed = false ∨ g.unread = 0
    · have hp : (g.subscribed && !(g.unread == 0) &&
          !(i && (g.group == c) && (liveUnreadCount em == 0))) = false := by
        rcases h1 with h | h <;> simp [h]
      rw [nntp_mailbox, if_pos h1, ih, next_unread_group, next_unread_group,
        List.find?_cons_of_neg _ (by simp only [hp]; decide)]
    · have hsub : g.subscribed = true := by
        cases hs : g.subscribed
        · exact absurd (Or.inl hs) h1
        · rfl
      have hunr : ¬(g.unread = 0) := fun h => h1 (Or.inr h)
      by_cases h2 : i = true ∧ g.group = c ∧ liveUnreadCount em = 0
      · have hp : (g.subscribed && !(g.unread == 0) &&
            !(i && (g.group == c) && (liveUnreadCount em == 0))) = false := by
          simp [hsub, h2.1, h2.2.1, h2.2.2]
        rw [nntp_mailbox, if_neg h1, if_pos h2, ih, next_unread_group,
          next_unread_group, List.find?_cons_of_neg _ (by simp only [hp]; decide)]
      · have hp : (g.subscribed && !(g.unread == 0) &&
            !(i && (g.group == c) && (liveUnreadCount em == 0))) = true := by
          simp only [hsub, Bool.true_and, Bool.and_eq_true, beq_iff_eq,
            Bool.not_eq_true', Bool.and_eq_false_iff]
          constructor
          · simp [hunr]
          · by_cases hi : i = true
            · by_cases hg : g.group = c
              · have hl : ¬(liveUnreadCount em = 0) := by
                  intro hl; exact h2 ⟨hi, hg, hl⟩
                right
                simp [hl]
              · left
                simp [hi, hg]
            · left
              simp [Bool.eq_false_iff.2 hi]
        have hfind : List.find?
            (fun g => g.subscribed && !(g.unread == 0) &&
              !(i && (g.group == c) && (liveUnreadCount em == 0)))
            (g :: rest) = some g :=
          List.find?_cons_of_pos _ hp
        rw [nntp_mailbox, if_neg h1, if_neg h2, next_unread_group, hfind]
        rfl

/-- C9: body-cache trimming deletes an entry whose key is the decimal
article number `n` if and only if `n` lies outside the group's closed
window `[first_message, last_message]`; and the header-cache cleaning loop
deletes exactly the keys of the previously indexed window that now lie
outside that window. -/
theorem cache_trim_window :
    (∀ (md : NntpMboxData) (n : Nat), n < U32 →
        (nntp_bcache_delete (some md) (natToDigits n) = true ↔
          (n < md.first_message ∨ n > md.last_message))) ∧
    (∀ first last fm lm n : Nat,
        n ∈ nntp_hcache_update_deleted first last fm lm ↔
          (first ≤ n ∧ n ≤ last ∧ ¬(fm ≤ n ∧ n ≤ lm))) := by
  constructor
  · intro md n hn
    rw [nntp_bcache_delete, scanIdFull_digits n hn]
    show (if n < md.first_message ∨ n > md.last_message then true else false) =
        true ↔ n < md.first_message ∨ n > md.last_message
    by_cases h : n < md.first_message ∨ n > md.last_message
    · rw [if_pos h]; simp [h]
    · rw [if_neg h]; simp [h]
  · intro first last fm lm n
    rw [nntp_hcache_update_deleted, List.mem_filter, List.mem_range'_1]
    simp only [Bool.not_eq_true', Bool.and_eq_false_iff, decide_eq_false_iff_not,
      Nat.not_le]
    constructor
    · intro h
      rcases h.2 with h2 | h2
      · exact ⟨by omega, by omega, by intro hc; omega⟩
      · exact ⟨by omega, by omega, by intro hc; omega⟩
    · intro h
      refine ⟨⟨by omega, by omega⟩, ?_⟩
      by_cases hfm : fm ≤ n
      · right
        have hnl := h.2.2
        omega
      · left
        omega

/-- C9 witness: with `first_article = 100`, `last_article = 200`, cached
body keys `50` and `250` are deleted, key `150` is retained, and header key
`250` from an old index window `[100,300]` is deleted. -/
theorem cache_trim_window_witness :
    nntp_bcache_delete
        (some { newGroup "g" with first_message := 100, last_message := 200 })
        (natToDigits 50) = true ∧
    nntp_bcache_delete
        (some { newGroup "g" with first_message := 100, last_message := 200 })
        (natToDigits 250) = true ∧
    nntp_bcache_delete
        (some { newGroup "g" with first_message := 100, last_message := 200 })
        (natToDigits 150) = false ∧
    250 ∈ nntp_hcache_update_deleted 100 300 100 200 := by
  refine ⟨(cache_trim_window.1
      { newGroup "g" with first_message := 100, last_message := 200 } 50
      (by decide)).mpr (by decide),
    (cache_trim_window.1
      { newGroup "g" with first_message := 100, last_message := 200 } 250
      (by decide)).mpr (by decide), ?_,
    (cache_trim_window.2 100 300 100 200 250).mpr (by decide)⟩
  have h := cache_trim_window.1
    { newGroup "g" with first_message := 100, last_message := 200 } 150
    (by decide)
  cases hv : nntp_bcache_delete
      (some { newGroup "g" with first_message := 100, last_message := 200 })
      (natToDigits 150) with
  | false => rfl
  | true => exact absurd (h.mp hv) (by decide)

theorem hashFind_some_group (groups : List NntpMboxData) (name : String)
    (g : NntpMboxData) (h : hashFind groups name = some g) : g.group = name := by
  have := List.find?_some h
  exact of_decide_eq_true this

theorem hashFind_updateGroup (name : String) (f : NntpMboxData → NntpMboxData)
    (hf : ∀ g : NntpMboxData, g.group = name → (f g).group = name) :
    ∀ groups : List NntpMboxData,
      hashFind (updateGroup groups name f) name = (hashFind groups name).map f := by
  intro groups
  induction groups with
  | nil => rfl
  | cons g rest ih =>
    by_cases hg : g.group = name
    · rw [updateGroup, List.map_cons, hashFind,
        List.find?_cons_of_pos _ (by simp [if_pos hg, hf g hg]), hashFind,
        List.find?_cons_of_pos _ (by simp [hg])]
      rw [if_pos hg]
      rfl
    · rw [updateGroup, List.map_cons, hashFind,
        List.find?_cons_of_neg _ (by simp [if_neg hg, hg]), hashFind,
        List.find?_cons_of_neg _ (by simp [hg])]
      exact ih

theorem updateGroup_absent (name : String) (f : NntpMboxData → NntpMboxData) :
    ∀ groups : List NntpMboxData, hashFind groups name = none →
      updateGroup groups name f = groups := by
  intro groups
  induction groups with
  | nil => intro _; rfl
  | cons g rest ih =>
    intro h
    have hg : ¬(g.group = name) := by
      intro hg
      rw [hashFind, List.find?_cons_of_pos _ (by simp [hg])] at h
      exact Option.noConfusion h
    have hrest : hashFind rest name = none := by
      rw [hashFind, List.find?_cons_of_neg _ (by simp [hg])] at h
      exact h
    rw [updateGroup, List.map_cons, if_neg hg]
    have := ih hrest
    rw [updateGroup] at this
    rw [this]

theorem hashFind_append_single (name : String) (x : NntpMboxData)
    (hx : x.group = name) :
    ∀ groups : List NntpMboxData, hashFind groups name = none →
      hashFind (groups ++ [x]) name = some x := by
  intro groups
  induction groups with
  | nil =>
    intro _
    rw [List.nil_append, hashFind, List.find?_cons_of_pos _ (by simp [hx])]
  | cons g rest ih =>
    intro h
    have hg : ¬(g.group = name) := by
      intro hg
      rw [hashFind, List.find?_cons_of_pos _ (by simp [hg])] at h
      exact Option.noConfusion h
    have hrest : hashFind rest name = none := by
      rw [hashFind, List.find?_cons_of_neg _ (by simp [hg])] at h
      exact h
    rw [List.cons_append, hashFind, List.find?_cons_of_neg _ (by simp [hg])]
    exact ih hrest

/-- C4 (amended): for every group present in the registry that has a
non-NULL entry array and `first_article = 1`, applying catchup (which
replaces the ranges by `[1, last_article]`) and then uncatchup leaves the
group's range list equal to the empty sentinel `[1,0]`, regardless of the
`last_article` value and of any open mailbox. -/
theorem catchup_uncatchup_empty (groups : List NntpMboxData) (name : String)
    (g : NntpMboxData) (mo1 mo2 : Option String) (em1 em2 : List LoadedArticle)
    (hname : ¬(name = "")) (hfind : hashFind groups name = some g)
    (hent : g.newsrc_ent.isSome = true) (hfm : g.first_message = 1) :
    (hashFind (mutt_newsgroup_uncatchup mo2 em2
        (mutt_newsgroup_catchup mo1 em1 groups name).2.1 name).2.1 name).map
      (fun x => x.newsrc_ent) = some (some [⟨1, 0⟩]) := by
  have hgname : g.group = name := hashFind_some_group groups name g hfind
  have hstep1 : (mutt_newsgroup_catchup mo1 em1 groups name).2.1 =
      updateGroup groups name
        (fun _ => { g with newsrc_ent := some [⟨1, g.last_message⟩],
                           unread := 0 }) := by
    rw [mutt_newsgroup_catchup, if_neg hname, hfind]
    simp only [hent, eq_self_iff_true, if_true]
  have hup1 : hashFind
      (updateGroup groups name
        (fun _ => { g with newsrc_ent := some [⟨1, g.last_message⟩],
                           unread := 0 })) name =
      some { g with newsrc_ent := some [⟨1, g.last_message⟩], unread := 0 } := by
    rw [hashFind_updateGroup name
      (fun _ => { g with newsrc_ent := some [⟨1, g.last_message⟩], unread := 0 })
      (fun _ _ => hgname) groups, hfind]
    rfl
  rw [hstep1, mutt_newsgroup_uncatchup, if_neg hname, hup1]
  simp only [Option.isSome_some, eq_self_iff_true, if_true]
  by_cases hmo2 : mo2 = some g.group
  · simp only [hmo2, eq_self_iff_true, if_true]
    rw [hashFind_updateGroup name
      (fun _ => { g with unread := em2.length,
                         newsrc_ent := some [⟨1, g.first_message - 1⟩] })
      (fun _ _ => hgname), hup1]
    simp [hfm]
  · simp only [if_neg (by simpa using hmo2)]
    rw [hashFind_updateGroup name
      (fun _ => { g with
                    unread := (g.last_message + (U32 - (g.first_message - 1) % U32)) % U32,
                    newsrc_ent := some [⟨1, g.first_message - 1⟩] })
      (fun _ _ => hgname), hup1]
    simp [hfm]

/-- C4 counterexample: a registry group whose entry array is NULL (as a
freshly created group's is) keeps a NULL entry array through catchup and
uncatchup, so the range set ends as NULL, not as the sentinel `[1,0]`. -/
theorem catchup_uncatchup_none_ranges :
    (hashFind (mutt_newsgroup_uncatchup none []
        (mutt_newsgroup_catchup none []
          [{ newGroup "g" with last_message := 7 }] "g").2.1 "g").2.1 "g").map
      (fun x => x.newsrc_ent) ≠ some (some [⟨1, 0⟩]) := by decide

/-- C4 witness: a concrete group with ranges `[[1,5]]`, `first_article = 1`
and `last_article = 7` ends with the sentinel `[1,0]` after catchup then
uncatchup, via the amended theorem. -/
theorem catchup_uncatchup_empty_witness :
    (hashFind (mutt_newsgroup_uncatchup none []
        (mutt_newsgroup_catchup none []
          [{ newGroup "g" with first_message := 1, last_message := 7,
                               newsrc_ent := some [⟨1, 5⟩] }] "g").2.1 "g").2.1
        "g").map (fun x => x.newsrc_ent) = some (some [⟨1, 0⟩]) :=
  catchup_uncatchup_empty
    [{ newGroup "g" with first_message := 1, last_message := 7,
                         newsrc_ent := some [⟨1, 5⟩] }] "g"
    { newGroup "g" with first_message := 1, last_message := 7,
                        newsrc_ent := some [⟨1, 5⟩] }
    none none [] [] (by decide) (by decide) (by decide) (by decide)

/-- C10: for a (nonempty) group name absent from the registry, unsubscribe,
catchup and uncatchup return NULL and leave the registry (and any open
mailbox) unchanged — no group is created — whereas subscribe appends a
fresh group that is subscribed and carries the sentinel `[1,0]` entry. -/
theorem subscription_absent (groups : List NntpMboxData) (name : String)
    (saveUnsub : Bool) (mo : Option String) (em : List LoadedArticle)
    (hname : ¬(name = "")) (habs : hashFind groups name = none) :
    mutt_newsgroup_unsubscribe saveUnsub groups name = (none, groups) ∧
    mutt_newsgroup_catchup mo em groups name = (none, groups, em) ∧
    mutt_newsgroup_uncatchup mo em groups name = (none, groups, em) ∧
    mutt_newsgroup_subscribe groups name =
      (some { newGroup name with subscribed := true, newsrc_ent := some [⟨1, 0⟩] },
       groups ++
         [{ newGroup name with subscribed := true,
                               newsrc_ent := some [⟨1, 0⟩] }]) := by
  refine ⟨?_, ?_, ?_, ?_⟩
  · rw [mutt_newsgroup_unsubscribe, if_neg hname, habs]
  · rw [mutt_newsgroup_catchup, if_neg hname, habs]
  · rw [mutt_newsgroup_uncatchup, if_neg hname, habs]
  · have hupd : updateGroup (groups ++ [newGroup name]) name
        (fun g => { g with subscribed := true,
                           newsrc_ent := some (g.newsrc_ent.getD [⟨1, 0⟩]) }) =
        groups ++
          [{ newGroup name with subscribed := true,
                                newsrc_ent := some [⟨1, 0⟩] }] := by
      rw [updateGroup, List.map_append]
      have h1 : List.map
          (fun g => if g.group = name then
            { g with subscribed := true,
                     newsrc_ent := some (g.newsrc_ent.getD [⟨1, 0⟩]) }
          else g) groups = groups := by
        have h2 : List.map (fun g : NntpMboxData => g) groups = groups :=
          List.map_id groups
        refine Eq.trans (List.map_congr_left ?_) h2
        intro g hg
        have h3 := List.find?_eq_none.1 habs g hg
        exact if_neg (by simpa using h3)
      rw [h1, List.map_cons, List.map_nil, if_pos (show (newGroup name).group = name from rfl)]
      rfl
    have happ : hashFind (groups ++
        [{ newGroup name with subscribed := true,
                              newsrc_ent := some [⟨1, 0⟩] }]) name =
        some { newGroup name with subscribed := true,
                                  newsrc_ent := some [⟨1, 0⟩] } :=
      hashFind_append_single name _ rfl groups habs
    simp only [mutt_newsgroup_subscribe, if_neg hname, mdataFind, habs, hupd, happ]

/-- C10 witness: on the empty registry, unsubscribe, catchup and uncatchup
of the absent name `"a"` return NULL and create nothing, while subscribe
creates the subscribed group with the sentinel range. -/
theorem subscription_absent_witness :
    mutt_newsgroup_unsubscribe false [] "a" = (none, []) ∧
    mutt_newsgroup_catchup none [] [] "a" = (none, [], []) ∧
    mutt_newsgroup_uncatchup none [] [] "a" = (none, [], []) ∧
    mutt_newsgroup_subscribe [] "a" =
      (some { newGroup "a" with subscribed := true, newsrc_ent := some [⟨1, 0⟩] },
       [{ newGroup "a" with subscribed := true, newsrc_ent := some [⟨1, 0⟩] }]) :=
  subscription_absent [] "a" false none [] (by decide) (by decide)
